import Mathlib

/-!
Verification development for the SPDK per-core event reactor
(`src/lib/event/reactor.c`).

The embedding models:
  * the DPDK bounded ring (`rte_ring_enqueue` / dequeue) as a Lean list with
    an explicit capacity, head = consumer end, tail = producer end;
  * the poller-removal walk of `_spdk_event_remove_poller` exactly as written
    in the source: the loop condition `i < rte_ring_count(...)` re-reads the
    ring length on every iteration;
  * the per-core system state (event queues, poller rings, poller `lcore`
    fields, the event pool counter) as a record `Sys`, with the four event
    callbacks that occur in the module (`_spdk_event_add_poller`,
    `_spdk_event_remove_poller`, `_spdk_poller_migrate`, and an opaque user
    completion callback) as an inductive `Act`;
  * the lifecycle globals (`g_reactor_mask`, `g_reactor_count`,
    `g_reactor_state`) as a record `GState`, with libc `strtoull(base 16)`
    modelled by `strtoull16` (optional `0x`/`0X` lead-in, hex digits,
    saturation at `ULLONG_MAX` with the `errno` range flag) and the DPDK host
    facts `rte_lcore_is_enabled` / `RTE_MAX_LCORE` / master core as
    parameters.

Poller and user callbacks are opaque in the source (function pointers); the
embedding records their invocations in instrumentation fields (`plog`,
`fired`, `ran`) that no modelled code reads.
-/

namespace SpdkReactor

/-- DPDK `rte_ring_enqueue` on a ring holding at most `cap` entries: append at
the tail, fail (non-zero return in C) when the ring is full. -/
def rte_ring_enqueue (cap : Nat) (x : Nat) (r : List Nat) : Option (List Nat) :=
  if r.length < cap then some (r ++ [x]) else none

/-- The removal walk of `_spdk_event_remove_poller` (reactor.c:523-532):

  for (i = 0; i < rte_ring_count(reactor->active_pollers); i++) \x7b
      rte_ring_dequeue(reactor->active_pollers, (void **)&tmp);
      if (tmp != poller)
          if (rte_ring_enqueue(...) != 0) exit(EXIT_FAILURE);
  \x7d

`none` models the `exit(EXIT_FAILURE)` path.  The loop condition re-reads the
ring length each iteration, exactly as the C source does.  The second list in
the result is instrumentation: the dequeued entries in dequeue order. -/
def removeWalkAux (cap t : Nat) (i : Nat) (r : List Nat) (tr : List Nat) :
    Option (List Nat × List Nat) :=
  if _h : i < r.length then
    match r with
    | [] => some (r, tr)
    | x :: rest =>
      if x = t then
        removeWalkAux cap t (i + 1) rest (tr ++ [x])
      else if rest.length < cap then
        removeWalkAux cap t (i + 1) (rest ++ [x]) (tr ++ [x])
      else
        none
  else
    some (r, tr)
termination_by r.length - i
decreasing_by
  · simp_all; omega
  · simp_all; omega

/-- The whole walk performed by `_spdk_event_remove_poller` on a ring, starting
from `i = 0` with no entry dequeued yet. -/
def removeWalk (cap t : Nat) (r : List Nat) : Option (List Nat × List Nat) :=
  removeWalkAux cap t 0 r []

/-- The event callbacks appearing in reactor.c, plus an opaque user callback
(used for completion events): `addPoller` is `_spdk_event_add_poller` with
`arg1 = spdk_reactor_get rcore` and `arg2 = p`; `removePoller` is
`_spdk_event_remove_poller` with the same argument convention; `migratePoller`
is `_spdk_poller_migrate` with `arg1 = p`. -/
inductive Act where
  | addPoller (rcore p : Nat)
  | removePoller (rcore p : Nat)
  | migratePoller (p : Nat)
  | user (id : Nat)

/-- An `spdk_event`: target lcore, callback with its arguments (`Act`), and
the chained `next` completion event. -/
inductive MEvent where
  | mk (lcore : Nat) (act : Act) (next : Option MEvent)

/-- Target lcore of an event (`event->lcore`). -/
def MEvent.lcore : MEvent → Nat
  | .mk l _ _ => l

/-- Number of `spdk_event_allocate` calls the callback of this event performs
when it runs: only `_spdk_poller_migrate` allocates (via
`spdk_poller_register`). -/
def evAlloc : MEvent → Nat
  | .mk _ (Act.migratePoller _) _ => 1
  | _ => 0

/-- Total allocations performed by running each event of a list once. -/
def allocCount (es : List MEvent) : Nat :=
  (es.map evAlloc).sum

/-- Mutable state of the reactor module: per-core event queues (`reactor->events`,
modelled unbounded since no claim exercises the 65536 event-queue bound),
per-core poller rings (`reactor->active_pollers`), each poller's `lcore` field,
and the free count of `g_spdk_event_mempool`.  `fired`, `ran` and `plog` are
instrumentation: user callback ids that have run, events whose callback was
invoked (in order), and poller callback invocations (in order). -/
structure Sys where
  queues : Nat → List MEvent
  rings : Nat → List Nat
  plcore : Nat → Nat
  fired : List Nat
  ran : List MEvent
  plog : List Nat
  pool : Nat

/-- `spdk_event_call`: enqueue the event on the event queue of its target
lcore. -/
def spdk_event_call (e : MEvent) (s : Sys) : Sys :=
  { s with queues := Function.update s.queues e.lcore (s.queues e.lcore ++ [e]) }

/-- The `if (next) spdk_event_call(next);` tail shared by the handlers. -/
def callNext (next : Option MEvent) (s : Sys) : Sys :=
  match next with
  | some e => spdk_event_call e s
  | none => s

/-- `spdk_poller_register`: allocate an event targeted at `lcore` whose
callback is `_spdk_event_add_poller` with args `(spdk_reactor_get lcore, p)`
and `next = complete`, then `spdk_event_call` it.  `none` models the
`RTE_VERIFY` abort in `spdk_event_allocate` when the mempool is exhausted. -/
def spdk_poller_register (p lcore : Nat) (complete : Option MEvent) (s : Sys) :
    Option Sys :=
  if s.pool = 0 then none
  else some (spdk_event_call (MEvent.mk lcore (Act.addPoller lcore p) complete)
    { s with pool := s.pool - 1 })

/-- Run one event callback (`event->fn(event)`) on core `cur`.  Mirrors the
four handlers of reactor.c:
  * `_spdk_event_add_poller`: set `poller->lcore`, enqueue on the ring — the
    return code of `rte_ring_enqueue` is ignored by the source — then chain;
  * `_spdk_event_remove_poller`: the removal walk (fatal on re-enqueue
    failure), then chain;
  * `_spdk_poller_migrate`: `spdk_poller_register(poller, rte_lcore_id(), next)`
    where `rte_lcore_id() = cur`;
  * a user completion callback: record the id, then chain its `next` (models a
    completion callback that posts its follow-up via `spdk_event_call`). -/
def sysRunFn (cap cur : Nat) (e : MEvent) (s : Sys) : Option Sys :=
  match e with
  | .mk _ act next =>
    match act with
    | .addPoller rcore p =>
      let s1 := { s with plcore := Function.update s.plcore p rcore }
      let s2 :=
        match rte_ring_enqueue cap p (s1.rings rcore) with
        | some r => { s1 with rings := Function.update s1.rings rcore r }
        | none => s1
      some (callNext next s2)
    | .removePoller rcore p =>
      match removeWalk cap p (s.rings rcore) with
      | some pr => some (callNext next { s with rings := Function.update s.rings rcore pr.1 })
      | none => none
    | .migratePoller p => spdk_poller_register p cur next s
    | .user id => some (callNext next { s with fired := s.fired ++ [id] })

/-- `spdk_event_queue_run_single` on core `c`: dequeue one event (return if
the queue is empty), invoke its callback, then `spdk_event_free` it (the pool
count goes back up after the callback returns). -/
def sys_event_queue_run_single (cap c : Nat) (s : Sys) : Option Sys :=
  match s.queues c with
  | [] => some s
  | e :: rest =>
    (sysRunFn cap c e
        { s with queues := Function.update s.queues c rest, ran := s.ran ++ [e] }).map
      (fun s2 => { s2 with pool := s2.pool + 1 })

/-- `spdk_event_queue_run`: `while (count--) spdk_event_queue_run_single(...)`. -/
def sys_event_queue_run (cap c : Nat) : Nat → Sys → Option Sys
  | 0, s => some s
  | n + 1, s => (sys_event_queue_run_single cap c s).bind (sys_event_queue_run cap c n)

/-- `spdk_event_queue_run_all`: sample the queue length once, then run that
many events. -/
def sys_event_queue_run_all (cap c : Nat) (s : Sys) : Option Sys :=
  sys_event_queue_run cap c (s.queues c).length s

/-- `spdk_poller_unregister`: allocate an event targeted at `poller->lcore`
whose callback is `_spdk_event_remove_poller` with args
`(spdk_reactor_get (poller->lcore), p)` and `next = complete`, then call it. -/
def spdk_poller_unregister (p : Nat) (complete : Option MEvent) (s : Sys) :
    Option Sys :=
  if s.pool = 0 then none
  else some (spdk_event_call
    (MEvent.mk (s.plcore p) (Act.removePoller (s.plcore p) p) complete)
    { s with pool := s.pool - 1 })

/-- `spdk_poller_migrate`: `RTE_VERIFY` that `new_lcore` is in the core mask
(`none` models the abort), allocate the `_spdk_poller_migrate` event `e1`
targeted at `new_lcore` with `next = complete`, then
`spdk_poller_unregister(poller, e1)`. -/
def spdk_poller_migrate (mask : Nat) (p newLcore : Nat) (complete : Option MEvent)
    (s : Sys) : Option Sys :=
  if mask.testBit newLcore then
    if s.pool = 0 then none
    else spdk_poller_unregister p
      (some (MEvent.mk newLcore (Act.migratePoller p) complete))
      { s with pool := s.pool - 1 }
  else none

/-- One iteration of the `while (1)` body of `_spdk_reactor_run` on core `c`,
without the final state test: drain the event queue
(`spdk_event_queue_run_all`), the external `rte_timer_manage()` tick (opaque:
it does not touch reactor state), then dequeue at most one poller, invoke it,
and re-enqueue it at the tail — `exit(EXIT_FAILURE)` (modelled `none`) if that
re-enqueue fails. -/
def reactor_run_iter (cap c : Nat) (s : Sys) : Option Sys :=
  (sys_event_queue_run_all cap c s).bind fun s1 =>
    match s1.rings c with
    | [] => some s1
    | p :: rest =>
      match rte_ring_enqueue cap p rest with
      | some r => some { s1 with plog := s1.plog ++ [p], rings := Function.update s1.rings c r }
      | none => none

/-- `N` successive iterations of the reactor loop body. -/
def reactor_run_iterN (cap c : Nat) : Nat → Sys → Option Sys
  | 0, s => some s
  | n + 1, s => (reactor_run_iter cap c s).bind (reactor_run_iterN cap c n)

/-- `enum spdk_reactor_state` of reactor.c. -/
inductive spdk_reactor_state where
  | INVALID
  | INITIALIZED
  | RUNNING
  | EXITING
  | SHUTDOWN
deriving DecidableEq

/-- The numeric value of each state (used for the `>=` comparison in
`spdk_reactor_parse_mask`). -/
def spdk_reactor_state.toNat : spdk_reactor_state → Nat
  | .INVALID => 0
  | .INITIALIZED => 1
  | .RUNNING => 2
  | .EXITING => 3
  | .SHUTDOWN => 4

/-- `spdk_reactors_stop`: writes `SPDK_REACTOR_STATE_EXITING` to the global
state, whatever it was. -/
def spdk_reactors_stop (_g : spdk_reactor_state) : spdk_reactor_state :=
  spdk_reactor_state.EXITING

/-- The `while (1)` loop of `_spdk_reactor_run` on core `c`.  `gs k` is the
value of the global `g_reactor_state` observed at the state test ending
iteration `k` (it is written by another thread, so it is a parameter stream).
The result is `some (k, s)` when the loop breaks at the test of iteration `k`,
`none` when the loop neither exits nor aborts within `fuel` iterations (or
aborts fatally). -/
def reactor_run_loop (cap c : Nat) (gs : Nat → spdk_reactor_state) :
    Nat → Nat → Sys → Option (Nat × Sys)
  | 0, _, _ => none
  | fuel + 1, k, s =>
    match reactor_run_iter cap c s with
    | none => none
    | some s1 =>
      if gs k = spdk_reactor_state.RUNNING then
        reactor_run_loop cap c gs fuel (k + 1) s1
      else
        some (k, s1)

/-- Hex value of a character, as libc `strtoull` base 16 accepts them. -/
def hexVal? (c : Char) : Option Nat :=
  if '0' ≤ c ∧ c ≤ '9' then some (c.toNat - '0'.toNat)
  else if 'a' ≤ c ∧ c ≤ 'f' then some (c.toNat - 'a'.toNat + 10)
  else if 'A' ≤ c ∧ c ≤ 'F' then some (c.toNat - 'A'.toNat + 10)
  else none

/-- Consume leading hex digits, returning the accumulated value and the rest
of the string (where libc's `end` pointer lands). -/
def hexDigits : Nat → List Char → Nat × List Char
  | acc, [] => (acc, [])
  | acc, c :: cs =>
    match hexVal? c with
    | some d => hexDigits (acc * 16 + d) cs
    | none => (acc, c :: cs)

/-- libc `strtoull(s, &end, 16)` restricted to the shapes reactor.c feeds it
(no leading whitespace or sign): an optional `0x`/`0X` lead-in — consumed only
when a hex digit follows, otherwise the subject is just the `0` and `end`
points at the `x` — then hex digits.  Returns the (saturating, as libc)
value, the tail at `end`, and the `ERANGE`/`errno` flag set exactly when the
exact value exceeds `ULLONG_MAX = 2^64 - 1`. -/
def strtoull16 (s : List Char) : Nat × List Char × Bool :=
  let p :=
    match s with
    | '0' :: c :: rest =>
      if c = 'x' ∨ c = 'X' then
        match rest with
        | d :: _ => if (hexVal? d).isSome then hexDigits 0 rest else (0, c :: rest)
        | [] => (0, [c])
      else hexDigits 0 s
    | _ => hexDigits 0 s
  (if p.1 < 2 ^ 64 then p.1 else 2 ^ 64 - 1, p.2, decide (2 ^ 64 ≤ p.1))

/-- The bit-clearing loop of `spdk_app_parse_core_mask`:
`for (i = 0; i < RTE_MAX_LCORE && i < 64; i++) if (bit set && !enabled) clear;`
Clearing a set bit `i` is `*cpumask &= ~(1ULL << i)`, here realised by xor
(equivalent because the bit is checked to be set first). -/
def clearDisabled (enabled : Nat → Bool) (bound : Nat) (v : Nat) : Nat :=
  (List.range bound).foldl
    (fun m i => if m.testBit i && !(enabled i) then m ^^^ (1 <<< i) else m) v

/-- The default mask built by `RTE_LCORE_FOREACH(i) g_reactor_mask |= 1ULL << i`
when no mask string is given: one bit per host-enabled lcore. -/
def defaultMask (enabled : Nat → Bool) (maxLcore : Nat) : Nat :=
  (List.range maxLcore).foldl
    (fun m i => if enabled i then m ||| (1 <<< i) else m) 0

/-- `spdk_app_parse_core_mask(mask, cpumask)`.  `enabled` is
`rte_lcore_is_enabled`, `maxLcore` is `RTE_MAX_LCORE`.  The `cpumask == NULL`
out-pointer check is modelled away (the one caller passes a global); `mask`
nullability is the `Option`.  Returns `(rc, *cpumask)`; note the source writes
`*cpumask` from `strtoull` before its error checks, so on a tail/range error
the written value is the raw `strtoull` result. -/
def spdk_app_parse_core_mask (enabled : Nat → Bool) (maxLcore : Nat)
    (mask : Option (List Char)) (cpumask : Nat) : Int × Nat :=
  match mask with
  | none => (-1, cpumask)
  | some s =>
    let r := strtoull16 s
    if r.2.1 ≠ [] ∨ r.2.2 = true then (-1, r.1)
    else (0, clearDisabled enabled (min maxLcore 64) r.1)

/-- The lifecycle globals of reactor.c: `g_reactor_mask`, `g_reactor_count`,
`g_reactor_state`, and the set of cores whose reactor has been constructed
(`spdk_reactor_construct` calls, in order). -/
structure GState where
  reactorMask : Nat
  reactorCount : Nat
  reactorState : spdk_reactor_state
  constructed : List Nat

/-- `spdk_reactor_parse_mask`: refuse after the application has started
(state ≥ INITIALIZED); with a null mask take the DPDK default; otherwise
parse via `spdk_app_parse_core_mask` (over the zeroed global) and then require
the master-core bit. -/
def spdk_reactor_parse_mask (enabled : Nat → Bool) (maxLcore masterCore : Nat)
    (mask : Option (List Char)) (g : GState) : Int × GState :=
  if 1 ≤ g.reactorState.toNat then (-1, g)
  else
    match mask with
    | none => (0, { g with reactorMask := defaultMask enabled maxLcore })
    | some s =>
      let pr := spdk_app_parse_core_mask enabled maxLcore (some s) 0
      let g1 := { g with reactorMask := pr.2 }
      if pr.1 ≠ 0 then (pr.1, g1)
      else if !(pr.2.testBit masterCore) then (-1, g1)
      else (0, g1)

/-- `spdk_reactors_init(mask)`: parse the mask (propagating its error without
touching the state), construct a reactor for every enabled core whose mask bit
is set, create the event mempool (`mempoolOk` models `rte_mempool_create`
success; on failure return -1 with the state still unchanged), then move the
state to INITIALIZED. -/
def spdk_reactors_init (enabled : Nat → Bool) (maxLcore masterCore : Nat)
    (mempoolOk : Bool) (mask : Option (List Char)) (g : GState) : Int × GState :=
  let pm := spdk_reactor_parse_mask enabled maxLcore masterCore mask g
  if pm.1 < 0 then pm
  else
    let g1 := pm.2
    let cores := (List.range maxLcore).filter
      (fun i => enabled i && g1.reactorMask.testBit i)
    let g2 := { g1 with constructed := g1.constructed ++ cores,
                        reactorCount := g1.reactorCount + cores.length }
    if !mempoolOk then (-1, g2)
    else (pm.1, { g2 with reactorState := spdk_reactor_state.INITIALIZED })

/-! ## Properties of the removal walk -/

/-- Invariant of the removal walk: under the ring-capacity invariant and with
the target present at most once, the walk never hits the fatal path, survivors
keep their multiplicities, and the target is dropped exactly when the loop
still reaches it (its index plus the iteration counter is below the current
length). -/
theorem removeWalkAux_spec (cap t : Nat) :
    ∀ (i : Nat) (r tr : List Nat), r.length ≤ cap → List.count t r ≤ 1 →
    ∃ r' tr', removeWalkAux cap t i r tr = some (r', tr') ∧
      (∀ q, q ≠ t → List.count q r' = List.count q r) ∧
      ((t ∈ r ∧ List.indexOf t r + i < r.length) → List.count t r' = 0) ∧
      (¬ (t ∈ r ∧ List.indexOf t r + i < r.length) → List.count t r' = List.count t r) := by
  intro i r tr
  induction i, r, tr using removeWalkAux.induct cap t with
  | case1 i tr h1 h2 => simp at h1
  | case2 i tr rest h1 h2 ih =>
    intro hlen hcnt
    rw [removeWalkAux]
    simp only [h1, dif_pos, if_pos rfl]
    have hcr : List.count t rest = 0 := by
      have := List.count_cons_self t rest ▸ hcnt
      omega
    have hrest : t ∉ rest := by
      intro hm
      have := List.count_pos_iff.mpr hm
      omega
    obtain ⟨r', tr', heq, hq, _h3, h4⟩ :=
      ih (by simpa using Nat.le_of_succ_le hlen) (by omega)
    refine ⟨r', tr', heq, ?_, ?_, ?_⟩
    · intro q hqt
      rw [hq q hqt, List.count_cons_of_ne hqt]
    · intro _
      rw [h4 (by simp [hrest]), hcr]
    · intro hno
      exfalso
      exact hno ⟨List.mem_cons_self t rest, by simpa [List.indexOf_cons_self] using h1⟩
  | case3 i tr x rest h1 hxt h2 h3 ih =>
    intro hlen hcnt
    rw [removeWalkAux]
    simp only [h1, dif_pos, if_neg hxt, if_pos h2]
    have hcnt' : List.count t (rest ++ [x]) = List.count t (x :: rest) := by
      simp [List.count_cons, List.count_append, Ne.symm hxt]
    obtain ⟨r', tr', heq, hq, hmem, h4⟩ :=
      ih (by simpa using hlen) (by omega)
    refine ⟨r', tr', heq, ?_, ?_, ?_⟩
    · intro q hqt
      rw [hq q hqt]
      simp [List.count_cons, List.count_append]
    · rintro ⟨hm, hidx⟩
      have hmr : t ∈ rest := by
        rcases List.mem_cons.mp hm with h | h
        · exact absurd h.symm hxt
        · exact h
      apply hmem
      refine ⟨List.mem_append_left _ hmr, ?_⟩
      rw [List.indexOf_append_of_mem hmr]
      rw [List.indexOf_cons_ne _ hxt] at hidx
      simp only [List.length_append, List.length_cons, List.length_nil] at hidx ⊢
      omega
    · intro hno
      rw [h4, hcnt']
      intro ⟨hm, hidx⟩
      have hmr : t ∈ rest := (List.mem_append.mp hm).resolve_right (by simp [Ne.symm hxt])
      apply hno
      refine ⟨List.mem_cons_of_mem x hmr, ?_⟩
      rw [List.indexOf_cons_ne _ hxt]
      rw [List.indexOf_append_of_mem hmr] at hidx
      simp only [List.length_append, List.length_cons, List.length_nil] at hidx ⊢
      omega
  | case4 i tr x rest h1 hxt h2 h3 =>
    intro hlen _
    exfalso
    simp at hlen
    omega
  | case5 i r tr h1 =>
    intro hlen hcnt
    rw [removeWalkAux]
    simp only [dif_neg h1]
    refine ⟨r, tr, rfl, fun q _ => rfl, ?_, fun _ => rfl⟩
    rintro ⟨hm, hidx⟩
    exfalso
    have := List.indexOf_lt_length.mpr hm
    omega

/-- For a target that is in the ring exactly once and a ring within capacity,
the walk of `_spdk_event_remove_poller` completes without the fatal path,
drops the target, and keeps every other poller's multiplicity. -/
theorem removeWalk_removes (cap t : Nat) (r : List Nat) (hlen : r.length ≤ cap)
    (hcnt : List.count t r = 1) :
    ∃ r' tr', removeWalk cap t r = some (r', tr') ∧ List.count t r' = 0 ∧
      ∀ q, q ≠ t → List.count q r' = List.count q r := by
  have hm : t ∈ r := List.count_pos_iff.mp (by omega)
  obtain ⟨r', tr', heq, hq, h3, _⟩ :=
    removeWalkAux_spec cap t 0 r [] hlen (by omega)
  exact ⟨r', tr', heq, h3 ⟨hm, by simpa using List.indexOf_lt_length.mpr hm⟩, hq⟩

/-- C1: the claim says the removal walk of `on_remove_poller` leaves the
surviving pollers in their original relative dequeue order — for a ring
(A, B, C, D) = [1, 2, 3, 4] with target B = 2, it predicts the ring dequeues
as (A, C, D) = [1, 3, 4].  Evaluating the source's walk at that input shows
the target B is indeed absent, but the surviving ring is (D, A, C) =
[4, 1, 3]: the loop condition re-reads `rte_ring_count` after B is dropped,
stops one entry early, and leaves the ring rotated, contradicting the claim
(and the source's own comment that the list stays in the same order). -/
theorem c1_remove_walk_rotates :
    removeWalk 4096 2 [1, 2, 3, 4] = some ([4, 1, 3], [1, 2, 3]) ∧
      ([4, 1, 3] : List Nat) ≠ [1, 3, 4] ∧ (2 : Nat) ∉ ([4, 1, 3] : List Nat) := by
  refine ⟨?_, by decide, by decide⟩
  simp [removeWalk, removeWalkAux]

/-- C2: the claim says the walk samples the ring length exactly once and then
dequeues exactly that many entries, examining every starting entry exactly
once.  Evaluating the source's walk on the ring [1, 2, 3, 4] with target 2:
the instrumented dequeue trace is [1, 2, 3] — only 3 dequeues for a starting
length of 4, and entry 4 is never dequeued or examined — because the loop
condition re-evaluates `rte_ring_count` on every iteration rather than
sampling it once. -/
theorem c2_remove_walk_resamples_count :
    removeWalk 4096 2 [1, 2, 3, 4] = some ([4, 1, 3], [1, 2, 3]) ∧
      ([1, 2, 3] : List Nat).length ≠ ([1, 2, 3, 4] : List Nat).length ∧
      (4 : Nat) ∉ ([1, 2, 3] : List Nat) := by
  refine ⟨?_, by decide, by decide⟩
  simp [removeWalk, removeWalkAux]

/-! ## Effects of running a single event -/

/-- `callNext` touches only the event queues. -/
theorem callNext_ran (next : Option MEvent) (s : Sys) : (callNext next s).ran = s.ran := by
  cases next <;> simp [callNext, spdk_event_call]

theorem callNext_pool (next : Option MEvent) (s : Sys) : (callNext next s).pool = s.pool := by
  cases next <;> simp [callNext, spdk_event_call]

theorem callNext_rings (next : Option MEvent) (s : Sys) : (callNext next s).rings = s.rings := by
  cases next <;> simp [callNext, spdk_event_call]

theorem callNext_plcore (next : Option MEvent) (s : Sys) :
    (callNext next s).plcore = s.plcore := by
  cases next <;> simp [callNext, spdk_event_call]

/-- `callNext` only appends at queue tails. -/
theorem callNext_queues (next : Option MEvent) (s : Sys) (c : Nat) :
    ∃ tail, (callNext next s).queues c = s.queues c ++ tail := by
  cases next with
  | none => exact ⟨[], by simp [callNext]⟩
  | some e =>
    by_cases hc : c = e.lcore
    · subst hc
      exact ⟨[e], by simp [callNext, spdk_event_call]⟩
    · exact ⟨[], by simp [callNext, spdk_event_call, Function.update_noteq hc]⟩

/-- Running any event callback leaves the invocation log alone, consumes
exactly `evAlloc` pool records (the callback-side allocations), and only
appends to event queues. -/
theorem sysRunFn_effects (cap cur : Nat) (e : MEvent) (s s2 : Sys)
    (h : sysRunFn cap cur e s = some s2) :
    s2.ran = s.ran ∧ s2.pool + evAlloc e = s.pool ∧
      ∀ c, ∃ tail, s2.queues c = s.queues c ++ tail := by
  obtain ⟨l, act, next⟩ := e
  cases act with
  | addPoller rcore p =>
    simp only [sysRunFn] at h
    split at h <;>
      · rw [Option.some.injEq] at h
        subst h
        exact ⟨callNext_ran _ _, by simp [callNext_pool, evAlloc],
          fun c => callNext_queues _ _ c⟩
  | removePoller rcore p =>
    simp only [sysRunFn] at h
    split at h
    · rw [Option.some.injEq] at h
      subst h
      exact ⟨callNext_ran _ _, by simp [callNext_pool, evAlloc],
        fun c => callNext_queues _ _ c⟩
    · exact absurd h (by simp)
  | migratePoller p =>
    simp only [sysRunFn, spdk_poller_register] at h
    split at h
    · exact absurd h (by simp)
    · rw [Option.some.injEq] at h
      subst h
      refine ⟨by simp [spdk_event_call], ?_, ?_⟩
      · simp only [spdk_event_call, evAlloc]
        omega
      · intro c
        by_cases hc : c = cur
        · subst hc
          exact ⟨[MEvent.mk c (Act.addPoller c p) next],
            by simp [spdk_event_call, MEvent.lcore]⟩
        · refine ⟨[], ?_⟩
          simp only [spdk_event_call, MEvent.lcore, List.append_nil]
          exact Function.update_noteq hc _ _
  | user id =>
    simp only [sysRunFn, Option.some.injEq] at h
    subst h
    exact ⟨callNext_ran _ _, by simp [callNext_pool, evAlloc],
      fun c => callNext_queues _ _ c⟩

/-- One `spdk_event_queue_run_single` step on a non-empty queue: the head
event's callback is invoked (recorded once in `ran`), the queue loses its head
and gains only tail appends, and the pool balance is the freed record minus
the callback's allocations. -/
theorem run_single_step (cap c : Nat) (e : MEvent) (rest : List MEvent) (s s' : Sys)
    (hq : s.queues c = e :: rest) (h : sys_event_queue_run_single cap c s = some s') :
    ∃ tail, s'.queues c = rest ++ tail ∧ s'.ran = s.ran ++ [e] ∧
      s'.pool + evAlloc e = s.pool + 1 := by
  simp only [sys_event_queue_run_single, hq] at h
  rcases hr : sysRunFn cap c e
      { s with queues := Function.update s.queues c rest, ran := s.ran ++ [e] } with _ | s2 <;>
    rw [hr] at h <;>
      simp only [Option.map_none', Option.map_some', Option.some.injEq,
        reduceCtorEq] at h
  obtain ⟨hran, hpool, hques⟩ := sysRunFn_effects cap c e _ s2 hr
  obtain ⟨tail, htail⟩ := hques c
  subst h
  refine ⟨tail, ?_, by simpa using hran, by simp only [Sys.pool] at hpool ⊢; omega⟩
  simpa using htail

theorem allocCount_cons (e : MEvent) (l : List MEvent) :
    allocCount (e :: l) = evAlloc e + allocCount l := by
  simp [allocCount]

/-- Running `n` steps of the drain loop with at least `n` events initially
queued runs exactly the first `n` initially-queued events, once each in queue
order, and returns each of their records to the pool net of callback-side
allocations. -/
theorem run_take (cap c : Nat) :
    ∀ (n : Nat) (s s' : Sys), n ≤ (s.queues c).length →
    sys_event_queue_run cap c n s = some s' →
    s'.ran = s.ran ++ (s.queues c).take n ∧
      s'.pool + allocCount ((s.queues c).take n) = s.pool + n := by
  intro n
  induction n with
  | zero =>
    intro s s' _ h
    simp only [sys_event_queue_run, Option.some.injEq] at h
    subst h
    simp [allocCount]
  | succ n ih =>
    intro s s' hlen h
    rcases hq : s.queues c with _ | ⟨e, rest⟩
    · rw [hq] at hlen
      simp at hlen
    · have hlen' : n ≤ rest.length := by
        rw [hq] at hlen
        simpa using hlen
      simp only [sys_event_queue_run] at h
      rcases h1 : sys_event_queue_run_single cap c s with _ | s1 <;> rw [h1] at h <;>
        simp only [Option.none_bind, Option.some_bind, reduceCtorEq] at h
      obtain ⟨tail, hqt, hran, hpool⟩ := run_single_step cap c e rest s s1 hq h1
      have hlen1 : n ≤ (s1.queues c).length := by
        rw [hqt]
        simp only [List.length_append]
        omega
      obtain ⟨hran', hpool'⟩ := ih s1 s' hlen1 h
      have htake : (s1.queues c).take n = rest.take n := by
        rw [hqt, List.take_append_of_le_length hlen']
      constructor
      · rw [hran', htake, hran, List.take_succ_cons, List.append_assoc]
        rfl
      · rw [htake] at hpool'
        rw [List.take_succ_cons, allocCount_cons]
        omega

/-- C3: `spdk_event_queue_run_all` samples the queue length exactly once and
then dequeues and runs exactly that many events: every event queued at the
start of the drain has its callback invoked exactly once, in queue order, and
each record returns to the event pool right after its callback returns (the
pool balance after the drain is the starting balance plus one per drained
event, minus the allocations the drained callbacks themselves performed) —
so events enqueued while the drain runs are not run in that pass. -/
theorem c3_drain_snapshot (cap c : Nat) (s s' : Sys)
    (h : sys_event_queue_run_all cap c s = some s') :
    s'.ran = s.ran ++ s.queues c ∧
      s'.pool + allocCount (s.queues c) = s.pool + (s.queues c).length := by
  rw [sys_event_queue_run_all] at h
  have := run_take cap c (s.queues c).length s s' le_rfl h
  simpa [List.take_length] using this

/-- Witness for C3: a queue holding one user event whose callback posts a
follow-up event to the same core; the drain runs only the initially-queued
event. -/
theorem c3_drain_snapshot_witness :
    ∃ s', sys_event_queue_run_all 4 0
        (Sys.mk
          (fun c => if c = 0 then
            [MEvent.mk 0 (Act.user 5) (some (MEvent.mk 0 (Act.user 6) none))] else [])
          (fun _ => []) (fun _ => 0) [] [] [] 3) = some s' ∧
      s'.ran = [MEvent.mk 0 (Act.user 5) (some (MEvent.mk 0 (Act.user 6) none))] ∧
      s'.pool + allocCount
          [MEvent.mk 0 (Act.user 5) (some (MEvent.mk 0 (Act.user 6) none))] = 3 + 1 := by
  obtain ⟨h1, h2⟩ := c3_drain_snapshot 4 0
    (Sys.mk
      (fun c => if c = 0 then
        [MEvent.mk 0 (Act.user 5) (some (MEvent.mk 0 (Act.user 6) none))] else [])
      (fun _ => []) (fun _ => 0) [] [] [] 3) _ rfl
  exact ⟨_, rfl, by simpa using h1, by simpa using h2⟩

/-! ## The reactor loop: round-robin poller rotation -/

/-- Draining an empty event queue changes nothing. -/
theorem run_all_empty (cap c : Nat) (s : Sys) (h : s.queues c = []) :
    sys_event_queue_run_all cap c s = some s := by
  rw [sys_event_queue_run_all, h]
  rfl

theorem succ_mod_eq (i n : Nat) : (i + 1) % n = (i % n + 1) % n :=
  (Nat.mod_add_mod i n 1).symm

/-- Reading a rotated ring at position `i` is reading the original ring at
position `i + 1`, cyclically. -/
theorem getD_rotate_one (x : Nat) (xs : List Nat) (i : Nat) :
    (xs ++ [x]).getD (i % (x :: xs).length) 0 =
      (x :: xs).getD ((i + 1) % (x :: xs).length) 0 := by
  simp only [List.length_cons]
  have hlt : i % (xs.length + 1) < xs.length + 1 := Nat.mod_lt i (Nat.succ_pos _)
  rw [succ_mod_eq]
  rcases Nat.lt_or_ge (i % (xs.length + 1)) xs.length with h | h
  · rw [Nat.mod_eq_of_lt (show i % (xs.length + 1) + 1 < xs.length + 1 by omega)]
    rw [List.getD_append xs [x] 0 _ h, List.getD_cons_succ]
  · have hx : i % (xs.length + 1) = xs.length := by omega
    rw [hx, Nat.mod_self, List.getD_cons_zero,
      List.getD_append_right xs [x] 0 xs.length le_rfl, Nat.sub_self,
      List.getD_cons_zero]

/-- `N` iterations of the reactor loop body on a core with an empty event
queue and a non-empty poller ring: no fatal path, the queues are untouched,
the ring is rotated by `N`, and the poller invocation log extends by the
pollers read cyclically from the starting ring. -/
theorem reactor_iterN_rotation (cap c : Nat) :
    ∀ (N : Nat) (s : Sys), s.queues c = [] → s.rings c ≠ [] →
      (s.rings c).length ≤ cap →
    ∃ s', reactor_run_iterN cap c N s = some s' ∧
      s'.queues = s.queues ∧
      s'.rings = Function.update s.rings c ((s.rings c).rotate N) ∧
      s'.plog = s.plog ++ (List.range N).map
        (fun i => (s.rings c).getD (i % (s.rings c).length) 0) := by
  intro N
  induction N with
  | zero =>
    intro s hq hr hcap
    exact ⟨s, rfl, rfl, by rw [List.rotate_zero, Function.update_eq_self], by simp⟩
  | succ N ih =>
    intro s hq hr hcap
    rcases hring : s.rings c with _ | ⟨x, xs⟩
    · exact absurd hring hr
    have hxs : xs.length < cap := by
      rw [hring] at hcap
      simp only [List.length_cons] at hcap
      omega
    have hiter : reactor_run_iter cap c s = some
        { s with plog := s.plog ++ [x],
                 rings := Function.update s.rings c (xs ++ [x]) } := by
      rw [reactor_run_iter, run_all_empty cap c s hq, Option.some_bind]
      simp only [hring, rte_ring_enqueue, if_pos hxs]
    obtain ⟨s', h1, h2, h3, h4⟩ := ih
      { s with plog := s.plog ++ [x],
               rings := Function.update s.rings c (xs ++ [x]) }
      hq (by simp) (by simp; omega)
    refine ⟨s', ?_, h2, ?_, ?_⟩
    · rw [reactor_run_iterN, hiter, Option.some_bind]
      exact h1
    · rw [h3]
      simp only [Function.update_same, Function.update_idem]
      rw [List.rotate_cons_succ]
    · rw [h4]
      simp only [Function.update_same]
      rw [List.range_succ_eq_map, List.map_cons, List.map_map,
        List.append_assoc]
      congr 1
      rw [List.singleton_append]
      congr 1
      refine List.map_congr_left (fun i _ => ?_)
      show (xs ++ [x]).getD (i % (xs ++ [x]).length) 0 =
        (x :: xs).getD ((i + 1) % (x :: xs).length) 0
      rw [show (xs ++ [x]).length = (x :: xs).length by simp, getD_rotate_one]

/-- C5: each reactor-loop iteration dequeues at most one poller from the head
of the ring, invokes it, and re-enqueues that same poller at the tail; for
three pollers a, b, d registered in that order on core `c` with no other ring
mutations (empty event queue), after `N` iterations the invocation log has
grown by exactly the length-`N` initial segment of (a b d) repeated, and the
ring is the starting ring rotated by `N`. -/
theorem c5_round_robin (cap c N a b d : Nat) (s : Sys)
    (hq : s.queues c = []) (hr : s.rings c = [a, b, d]) (hcap : 3 ≤ cap) :
    ∃ s', reactor_run_iterN cap c N s = some s' ∧
      s'.plog = s.plog ++ (List.range N).map (fun i => [a, b, d].getD (i % 3) 0) ∧
      s'.rings c = [a, b, d].rotate N := by
  obtain ⟨s', h1, _h2, h3, h4⟩ := reactor_iterN_rotation cap c N s hq
    (by rw [hr]; simp) (by rw [hr]; simpa using hcap)
  refine ⟨s', h1, ?_, ?_⟩
  · rw [h4, hr]
    rfl
  · rw [h3, hr, Function.update_same]

/-- Witness for C5: pollers (1, 2, 3) on core 0 with ring capacity 3, four
iterations: invocations 1, 2, 3, 1 and ring rotated to [2, 3, 1]. -/
theorem c5_round_robin_witness :
    ∃ s', reactor_run_iterN 3 0 4
        (Sys.mk (fun _ => []) (fun c => if c = 0 then [1, 2, 3] else [])
          (fun _ => 0) [] [] [] 0) = some s' ∧
      s'.plog = [] ++ (List.range 4).map (fun i => [1, 2, 3].getD (i % 3) 0) ∧
      s'.rings 0 = [1, 2, 3].rotate 4 :=
  c5_round_robin 3 0 4 1 2 3
    (Sys.mk (fun _ => []) (fun c => if c = 0 then [1, 2, 3] else [])
      (fun _ => 0) [] [] [] 0) rfl rfl le_rfl

/-! ## The reactor loop: exit condition -/

/-- One loop-body iteration on a core with an empty event queue and a ring
within capacity succeeds and keeps the queue empty and the ring length
unchanged. -/
theorem reactor_iter_preserves (cap c : Nat) (s : Sys)
    (hq : s.queues c = []) (hcap : (s.rings c).length ≤ cap) :
    ∃ s1, reactor_run_iter cap c s = some s1 ∧ s1.queues c = [] ∧
      (s1.rings c).length = (s.rings c).length := by
  rcases hring : s.rings c with _ | ⟨x, xs⟩
  · refine ⟨s, ?_, hq, by rw [hring]⟩
    rw [reactor_run_iter, run_all_empty cap c s hq, Option.some_bind]
    simp [hring]
  · have hxs : xs.length < cap := by
      rw [hring] at hcap
      simp only [List.length_cons] at hcap
      omega
    refine ⟨{ s with plog := s.plog ++ [x], rings := Function.update s.rings c (xs ++ [x]) }, ?_, hq, ?_⟩
    · rw [reactor_run_iter, run_all_empty cap c s hq, Option.some_bind]
      simp only [hring, rte_ring_enqueue, if_pos hxs]
    · simp [Function.update_same, hring]

/-- If the global state read at some upcoming test is not RUNNING, the loop
returns within that many further iterations. -/
theorem reactor_loop_exits (cap c : Nat) (gs : Nat → spdk_reactor_state) :
    ∀ (K k : Nat) (s : Sys), s.queues c = [] → (s.rings c).length ≤ cap →
      gs (k + K) ≠ spdk_reactor_state.RUNNING →
      ∃ k' s', reactor_run_loop cap c gs (K + 1) k s = some (k', s') ∧ k' ≤ k + K := by
  intro K
  induction K with
  | zero =>
    intro k s hq hcap hgs
    obtain ⟨s1, hiter, _, _⟩ := reactor_iter_preserves cap c s hq hcap
    refine ⟨k, s1, ?_, by omega⟩
    simp only [reactor_run_loop, hiter, if_neg (by simpa using hgs)]
  | succ K ih =>
    intro k s hq hcap hgs
    obtain ⟨s1, hiter, hq1, hlen1⟩ := reactor_iter_preserves cap c s hq hcap
    by_cases hrun : gs k = spdk_reactor_state.RUNNING
    · obtain ⟨k', s', hloop, hk⟩ := ih (k + 1) s1 hq1 (by rw [hlen1]; exact hcap)
        (by
          have he : k + 1 + K = k + (K + 1) := by omega
          rw [he]
          exact hgs)
      refine ⟨k', s', ?_, by omega⟩
      simp only [reactor_run_loop, hiter, if_pos hrun]
      exact hloop
    · refine ⟨k, s1, ?_, by omega⟩
      simp only [reactor_run_loop, hiter, if_neg hrun]

/-- When the loop returns at the test of iteration `k'`, the state read there
was not RUNNING and the state read at every earlier test was RUNNING: the loop
exits after an iteration exactly when the state is no longer RUNNING at that
iteration's test. -/
theorem reactor_loop_exit_iff (cap c : Nat) (gs : Nat → spdk_reactor_state) :
    ∀ (fuel k : Nat) (s : Sys) (k' : Nat) (s' : Sys),
      reactor_run_loop cap c gs fuel k s = some (k', s') →
      gs k' ≠ spdk_reactor_state.RUNNING ∧
        ∀ j, k ≤ j → j < k' → gs j = spdk_reactor_state.RUNNING := by
  intro fuel
  induction fuel with
  | zero =>
    intro k s k' s' h
    simp [reactor_run_loop] at h
  | succ fuel ih =>
    intro k s k' s' h
    simp only [reactor_run_loop] at h
    split at h
    · exact absurd h (by simp)
    · rename_i s1 heq
      by_cases hrun : gs k = spdk_reactor_state.RUNNING
      · rw [if_pos hrun] at h
        obtain ⟨h1, h2⟩ := ih (k + 1) s1 k' s' h
        refine ⟨h1, fun j hj1 hj2 => ?_⟩
        rcases Nat.eq_or_lt_of_le hj1 with rfl | h'
        · exact hrun
        · exact h2 j h' hj2
      · rw [if_neg hrun] at h
        simp only [Option.some.injEq, Prod.mk.injEq] at h
        obtain ⟨hk, _⟩ := h
        subst hk
        exact ⟨hrun, fun j hj1 hj2 => absurd hj1 (by omega)⟩

/-- C6: each reactor-loop iteration performs, in this order, the event-queue
drain, the timer tick, at most one poller advance, then the global-state test
(the order is the structure of `reactor_run_iter` / `reactor_run_loop`); the
loop exits after an iteration iff the global state read at that iteration's
test is no longer RUNNING; and once `spdk_reactors_stop` has set the state to
EXITING (so a test at iteration `K` reads EXITING), the loop returns within
`K + 1` iterations. -/
theorem c6_loop_exit (cap c : Nat) (gs : Nat → spdk_reactor_state) :
    (∀ st, spdk_reactors_stop st = spdk_reactor_state.EXITING) ∧
    (∀ (K : Nat) (s : Sys), s.queues c = [] → (s.rings c).length ≤ cap →
      gs K = spdk_reactor_state.EXITING →
      ∃ k' s', reactor_run_loop cap c gs (K + 1) 0 s = some (k', s') ∧ k' ≤ K) ∧
    (∀ (fuel : Nat) (s : Sys) (k' : Nat) (s' : Sys),
      reactor_run_loop cap c gs fuel 0 s = some (k', s') →
      gs k' ≠ spdk_reactor_state.RUNNING ∧
        ∀ j, j < k' → gs j = spdk_reactor_state.RUNNING) := by
  refine ⟨fun _ => rfl, ?_, ?_⟩
  · intro K s hq hcap hgs
    have h0 : gs (0 + K) ≠ spdk_reactor_state.RUNNING := by
      rw [Nat.zero_add, hgs]
      simp
    simpa using reactor_loop_exits cap c gs K 0 s hq hcap h0
  · intro fuel s k' s' h
    obtain ⟨h1, h2⟩ := reactor_loop_exit_iff cap c gs fuel 0 s k' s' h
    exact ⟨h1, fun j hj => h2 j (Nat.zero_le j) hj⟩

/-- Witness for C6: the state stream reads RUNNING at tests 0 and 1 and
EXITING from test 2 on; an idle reactor exits within 3 iterations, at
iteration 2, having read RUNNING at the two earlier tests. -/
theorem c6_loop_exit_witness :
    (∃ k' s', reactor_run_loop 4 0
        (fun k => if k < 2 then spdk_reactor_state.RUNNING else spdk_reactor_state.EXITING)
        3 0 (Sys.mk (fun _ => []) (fun _ => []) (fun _ => 0) [] [] [] 0) =
          some (k', s') ∧ k' ≤ 2) ∧
    ((fun k => if k < 2 then spdk_reactor_state.RUNNING else spdk_reactor_state.EXITING) 2
        ≠ spdk_reactor_state.RUNNING ∧
      ∀ j, j < 2 →
        (fun k => if k < 2 then spdk_reactor_state.RUNNING else spdk_reactor_state.EXITING) j
          = spdk_reactor_state.RUNNING) := by
  constructor
  · exact (c6_loop_exit 4 0
      (fun k => if k < 2 then spdk_reactor_state.RUNNING else spdk_reactor_state.EXITING)).2.1
      2 (Sys.mk (fun _ => []) (fun _ => []) (fun _ => 0) [] [] [] 0) rfl
      (by simp) rfl
  · exact (c6_loop_exit 4 0
      (fun k => if k < 2 then spdk_reactor_state.RUNNING else spdk_reactor_state.EXITING)).2.2
      3 (Sys.mk (fun _ => []) (fun _ => []) (fun _ => 0) [] [] [] 0) 2
      (Sys.mk (fun _ => []) (fun _ => []) (fun _ => 0) [] [] [] 0) rfl

/-! ## The migrate control protocol -/

/-- Updating a function at a point with the value it already has is the
identity. -/
theorem update_eq_self_of {β : Type} {f : Nat → β} {a : Nat} {v : β} (h : f a = v) :
    Function.update f a v = f := by
  rw [← h]
  exact Function.update_eq_self a f

/-- Running the drain for a count of one is one `run_single` step. -/
theorem run_one (cap c : Nat) (s : Sys) :
    sys_event_queue_run cap c 1 s = sys_event_queue_run_single cap c s := by
  show (sys_event_queue_run_single cap c s).bind (sys_event_queue_run cap c 0) =
    sys_event_queue_run_single cap c s
  rcases h : sys_event_queue_run_single cap c s with _ | s1
  · rfl
  · rfl

/-- Draining a queue that holds exactly one event runs that event's callback
and frees its record. -/
theorem run_all_one (cap c : Nat) (e : MEvent) (s : Sys) (hq1 : s.queues c = [e]) :
    sys_event_queue_run_all cap c s =
      (sysRunFn cap c e
          { s with queues := Function.update s.queues c [], ran := s.ran ++ [e] }).map
        (fun s2 => { s2 with pool := s2.pool + 1 }) := by
  rw [sys_event_queue_run_all, hq1]
  rw [show ([e].length) = 1 from rfl, run_one]
  simp only [sys_event_queue_run_single, hq1]

/-- C4: the migrate protocol.  `spdk_poller_migrate(P, M, E)` posts the
unregister event to P's current core `A` with the migrate event as its chain;
running core `A`'s drain removes P from `A`'s ring and posts the migrate event
to `M`; running core `M`'s drain allocates and posts the add event on `M`;
running `M`'s drain again sets `P.lcore = M`, enqueues P on `M`'s ring, and
posts the completion; in the two states between the unregister taking effect
and the re-register taking effect, P is in no ring; once the completion fires
(after the drain of its target core), P's recorded lcore is `M`, core `A`'s
ring does not contain P, core `M`'s ring contains P exactly once, and the
rings are unchanged from the moment the re-register took effect. -/
theorem c4_migrate_protocol (cap mask A M P cid cb : Nat) (s : Sys)
    (hAM : A ≠ M) (hpl : s.plcore P = A)
    (hcnt : List.count P (s.rings A) = 1)
    (hother : ∀ c, c ≠ A → P ∉ s.rings c)
    (hlenA : (s.rings A).length ≤ cap)
    (hlenM : (s.rings M).length < cap)
    (hq : ∀ c, s.queues c = [])
    (hpool : 2 ≤ s.pool)
    (hmask : mask.testBit M = true) :
    ∃ s1 s2 s3 s4 s5,
      spdk_poller_migrate mask P M (some (MEvent.mk cb (Act.user cid) none)) s = some s1 ∧
      sys_event_queue_run_all cap A s1 = some s2 ∧
      sys_event_queue_run_all cap M s2 = some s3 ∧
      sys_event_queue_run_all cap M s3 = some s4 ∧
      sys_event_queue_run_all cap cb s4 = some s5 ∧
      (∀ c, P ∉ s2.rings c) ∧
      (∀ c, P ∉ s3.rings c) ∧
      s4.plcore P = M ∧
      List.count P (s4.rings M) = 1 ∧
      P ∉ s4.rings A ∧
      cid ∈ s5.fired ∧ s5.rings = s4.rings ∧ s5.plcore P = M := by
  have hMA : M ≠ A := Ne.symm hAM
  have hp1 : ¬ s.pool = 0 := by omega
  have hp2 : ¬ s.pool - 1 = 0 := by omega
  have hp3 : ¬ s.pool - 1 - 1 + 1 = 0 := by omega
  obtain ⟨rA', tr, hwalk, hc0, hpres⟩ := removeWalk_removes cap P (s.rings A) hlenA hcnt
  have hPA' : P ∉ rA' := List.count_eq_zero.mp hc0
  have hPM : P ∉ s.rings M := hother M hMA
  have hcntM : List.count P (s.rings M) = 0 := List.count_eq_zero.mpr hPM
  have h0 : spdk_poller_migrate mask P M (some (MEvent.mk cb (Act.user cid) none)) s = some { s with queues := Function.update s.queues A [MEvent.mk A (Act.removePoller A P) (some (MEvent.mk M (Act.migratePoller P) (some (MEvent.mk cb (Act.user cid) none))))], pool := s.pool - 1 - 1 } := by
    simp only [spdk_poller_migrate, spdk_poller_unregister, spdk_event_call, MEvent.lcore,
      if_pos hmask, if_neg hp1, if_neg hp2, hpl, hq, List.nil_append]
  have h1 : sys_event_queue_run_all cap A { s with queues := Function.update s.queues A [MEvent.mk A (Act.removePoller A P) (some (MEvent.mk M (Act.migratePoller P) (some (MEvent.mk cb (Act.user cid) none))))], pool := s.pool - 1 - 1 } = some { s with queues := Function.update s.queues M [MEvent.mk M (Act.migratePoller P) (some (MEvent.mk cb (Act.user cid) none))], rings := Function.update s.rings A rA', ran := s.ran ++ [MEvent.mk A (Act.removePoller A P) (some (MEvent.mk M (Act.migratePoller P) (some (MEvent.mk cb (Act.user cid) none))))], pool := s.pool - 1 - 1 + 1 } := by
    rw [run_all_one cap A (MEvent.mk A (Act.removePoller A P) (some (MEvent.mk M (Act.migratePoller P) (some (MEvent.mk cb (Act.user cid) none))))) _ (by simp [Function.update_same])]
    simp only [sysRunFn, hwalk, callNext, spdk_event_call, MEvent.lcore, Option.map_some',
      Function.update_idem, update_eq_self_of (hq A), hq, List.nil_append]
  have h2 : sys_event_queue_run_all cap M { s with queues := Function.update s.queues M [MEvent.mk M (Act.migratePoller P) (some (MEvent.mk cb (Act.user cid) none))], rings := Function.update s.rings A rA', ran := s.ran ++ [MEvent.mk A (Act.removePoller A P) (some (MEvent.mk M (Act.migratePoller P) (some (MEvent.mk cb (Act.user cid) none))))], pool := s.pool - 1 - 1 + 1 } = some { s with queues := Function.update s.queues M [MEvent.mk M (Act.addPoller M P) (some (MEvent.mk cb (Act.user cid) none))], rings := Function.update s.rings A rA', ran := s.ran ++ [MEvent.mk A (Act.removePoller A P) (some (MEvent.mk M (Act.migratePoller P) (some (MEvent.mk cb (Act.user cid) none))))] ++ [MEvent.mk M (Act.migratePoller P) (some (MEvent.mk cb (Act.user cid) none))], pool := s.pool - 1 - 1 + 1 - 1 + 1 } := by
    rw [run_all_one cap M (MEvent.mk M (Act.migratePoller P) (some (MEvent.mk cb (Act.user cid) none))) _ (by simp [Function.update_same])]
    simp only [sysRunFn, spdk_poller_register, if_neg hp3, spdk_event_call, MEvent.lcore,
      Option.map_some', Function.update_idem, update_eq_self_of (hq M), hq, List.nil_append]
  have h3 : sys_event_queue_run_all cap M { s with queues := Function.update s.queues M [MEvent.mk M (Act.addPoller M P) (some (MEvent.mk cb (Act.user cid) none))], rings := Function.update s.rings A rA', ran := s.ran ++ [MEvent.mk A (Act.removePoller A P) (some (MEvent.mk M (Act.migratePoller P) (some (MEvent.mk cb (Act.user cid) none))))] ++ [MEvent.mk M (Act.migratePoller P) (some (MEvent.mk cb (Act.user cid) none))], pool := s.pool - 1 - 1 + 1 - 1 + 1 } = some { s with queues := Function.update s.queues cb [MEvent.mk cb (Act.user cid) none], rings := Function.update (Function.update s.rings A rA') M (s.rings M ++ [P]), plcore := Function.update s.plcore P M, ran := s.ran ++ [MEvent.mk A (Act.removePoller A P) (some (MEvent.mk M (Act.migratePoller P) (some (MEvent.mk cb (Act.user cid) none))))] ++ [MEvent.mk M (Act.migratePoller P) (some (MEvent.mk cb (Act.user cid) none))] ++ [MEvent.mk M (Act.addPoller M P) (some (MEvent.mk cb (Act.user cid) none))], pool := s.pool - 1 - 1 + 1 - 1 + 1 + 1 } := by
    rw [run_all_one cap M (MEvent.mk M (Act.addPoller M P) (some (MEvent.mk cb (Act.user cid) none))) _ (by simp [Function.update_same])]
    simp only [sysRunFn, rte_ring_enqueue, callNext, spdk_event_call, MEvent.lcore,
      Option.map_some', Function.update_idem, update_eq_self_of (hq M), hq, List.nil_append,
      Function.update_noteq hMA, if_pos hlenM]
  have h4 : sys_event_queue_run_all cap cb { s with queues := Function.update s.queues cb [MEvent.mk cb (Act.user cid) none], rings := Function.update (Function.update s.rings A rA') M (s.rings M ++ [P]), plcore := Function.update s.plcore P M, ran := s.ran ++ [MEvent.mk A (Act.removePoller A P) (some (MEvent.mk M (Act.migratePoller P) (some (MEvent.mk cb (Act.user cid) none))))] ++ [MEvent.mk M (Act.migratePoller P) (some (MEvent.mk cb (Act.user cid) none))] ++ [MEvent.mk M (Act.addPoller M P) (some (MEvent.mk cb (Act.user cid) none))], pool := s.pool - 1 - 1 + 1 - 1 + 1 + 1 } = some { s with rings := Function.update (Function.update s.rings A rA') M (s.rings M ++ [P]), plcore := Function.update s.plcore P M, fired := s.fired ++ [cid], ran := s.ran ++ [MEvent.mk A (Act.removePoller A P) (some (MEvent.mk M (Act.migratePoller P) (some (MEvent.mk cb (Act.user cid) none))))] ++ [MEvent.mk M (Act.migratePoller P) (some (MEvent.mk cb (Act.user cid) none))] ++ [MEvent.mk M (Act.addPoller M P) (some (MEvent.mk cb (Act.user cid) none))] ++ [MEvent.mk cb (Act.user cid) none], pool := s.pool - 1 - 1 + 1 - 1 + 1 + 1 + 1 } := by
    rw [run_all_one cap cb (MEvent.mk cb (Act.user cid) none) _ (by simp [Function.update_same])]
    simp only [sysRunFn, callNext, Option.map_some', Function.update_idem,
      update_eq_self_of (hq cb), hq, List.nil_append]
  refine ⟨_, _, _, _, _, h0, h1, h2, h3, h4, ?_, ?_, ?_, ?_, ?_, ?_, ?_, ?_⟩
  · intro c
    by_cases hc : c = A
    · subst hc
      simpa [Function.update_same] using hPA'
    · simpa [Function.update_noteq hc] using hother c hc
  · intro c
    by_cases hc : c = A
    · subst hc
      simpa [Function.update_same] using hPA'
    · simpa [Function.update_noteq hc] using hother c hc
  · simp [Function.update_same]
  · simp [Function.update_same, List.count_append, hcntM]
  · simpa [Function.update_noteq hAM, Function.update_same] using hPA'
  · simp
  · rfl
  · simp [Function.update_same]

/-- Witness for C4: pollers ring capacity 4, mask 0b11, poller 7 registered on
core 0, migrated to core 1 with completion 9 targeted at core 1. -/
theorem c4_migrate_protocol_witness :
    ∃ s1 s2 s3 s4 s5,
      spdk_poller_migrate 3 7 1 (some (MEvent.mk 1 (Act.user 9) none))
        (Sys.mk (fun _ => []) (fun c => if c = 0 then [7] else []) (fun _ => 0)
          [] [] [] 2) = some s1 ∧
      sys_event_queue_run_all 4 0 s1 = some s2 ∧
      sys_event_queue_run_all 4 1 s2 = some s3 ∧
      sys_event_queue_run_all 4 1 s3 = some s4 ∧
      sys_event_queue_run_all 4 1 s4 = some s5 ∧
      (∀ c, 7 ∉ s2.rings c) ∧
      (∀ c, 7 ∉ s3.rings c) ∧
      s4.plcore 7 = 1 ∧
      List.count 7 (s4.rings 1) = 1 ∧
      7 ∉ s4.rings 0 ∧
      9 ∈ s5.fired ∧ s5.rings = s4.rings ∧ s5.plcore 7 = 1 :=
  c4_migrate_protocol 4 3 0 1 7 9 1
    (Sys.mk (fun _ => []) (fun c => if c = 0 then [7] else []) (fun _ => 0) [] [] [] 2)
    (by decide) rfl (by decide)
    (fun c hc => by simp [hc])
    (by decide) (by decide) (fun c => rfl) (by decide) (by decide)

/-! ## The add-poller handler on a full ring (C9) -/

/-- C9: when `_spdk_event_add_poller` runs and the target ring is full, the
handler ignores the `rte_ring_enqueue` failure: it still sets the poller's
`lcore` field to the target core and still posts the chained completion, the
rings are left unchanged (the poller lands in no ring), and the process does
not abort — unlike the advance re-enqueue path of `_spdk_reactor_run` and the
removal walk of `_spdk_event_remove_poller`, both of which
`exit(EXIT_FAILURE)` when their re-enqueue fails. -/
theorem c9_add_poller_ignores_full_ring :
    (∀ (cap cur lc rcore p : Nat) (ce : MEvent) (s : Sys),
      cap ≤ (s.rings rcore).length →
      sysRunFn cap cur (MEvent.mk lc (Act.addPoller rcore p) (some ce)) s =
        some { s with plcore := Function.update s.plcore p rcore,
                      queues := Function.update s.queues ce.lcore
                        (s.queues ce.lcore ++ [ce]) }) ∧
    (∀ (cap t x : Nat) (r : List Nat), x ≠ t → cap ≤ r.length →
      removeWalkAux cap t 0 (x :: r) [] = none) ∧
    (∀ (cap c p : Nat) (rest : List Nat) (s : Sys),
      s.queues c = [] → s.rings c = p :: rest → cap ≤ rest.length →
      reactor_run_iter cap c s = none) := by
  refine ⟨?_, ?_, ?_⟩
  · intro cap cur lc rcore p ce s hfull
    simp only [sysRunFn, rte_ring_enqueue,
      if_neg (show ¬ (s.rings rcore).length < cap by omega)]
    simp [callNext, spdk_event_call]
  · intro cap t x r hxt hcap
    rw [removeWalkAux]
    simp [hxt, show ¬ r.length < cap by omega]
  · intro cap c p rest s hq hring hcap
    rw [reactor_run_iter, run_all_empty cap c s hq, Option.some_bind]
    simp only [hring, rte_ring_enqueue,
      if_neg (show ¬ rest.length < cap by omega)]

/-- Witness for C9: ring of core 1 full at capacity 1 with poller 8; adding
poller 5 still sets its lcore to 1, posts the completion, leaves the rings
unchanged, and does not abort; at the same capacity the removal walk and the
advance path abort (`none`). -/
theorem c9_add_poller_ignores_full_ring_witness :
    (∃ s2, sysRunFn 1 0 (MEvent.mk 1 (Act.addPoller 1 5) (some (MEvent.mk 0 (Act.user 3) none)))
        (Sys.mk (fun _ => []) (fun c => if c = 1 then [8] else []) (fun _ => 0) [] [] [] 0) =
          some s2 ∧
      s2.rings = (Sys.mk (fun _ => []) (fun c => if c = 1 then [8] else [])
        (fun _ => 0) [] [] [] 0).rings ∧ s2.plcore 5 = 1) ∧
    removeWalkAux 1 4 0 (5 :: [6]) [] = none ∧
    reactor_run_iter 1 0 (Sys.mk (fun _ => []) (fun c => if c = 0 then [5, 6] else [])
      (fun _ => 0) [] [] [] 0) = none := by
  refine ⟨⟨_, c9_add_poller_ignores_full_ring.1 1 0 1 1 5 (MEvent.mk 0 (Act.user 3) none)
      (Sys.mk (fun _ => []) (fun c => if c = 1 then [8] else []) (fun _ => 0) [] [] [] 0)
      (by decide), rfl, by simp⟩,
    c9_add_poller_ignores_full_ring.2.1 1 4 5 [6] (by decide) (by decide),
    c9_add_poller_ignores_full_ring.2.2 1 0 5 [6]
      (Sys.mk (fun _ => []) (fun c => if c = 0 then [5, 6] else []) (fun _ => 0) [] [] [] 0)
      rfl rfl (by decide)⟩

/-! ## Lifecycle: mask parsing and init -/

/-- Bit `j` after the clearing fold: cleared exactly when `j` occurs in the
processed list and the host does not report it enabled. -/
theorem clear_foldl_testBit (enabled : Nat → Bool) :
    ∀ (l : List Nat) (m j : Nat),
    (l.foldl (fun m i => if m.testBit i && !(enabled i) then m ^^^ (1 <<< i) else m) m).testBit j
      = (m.testBit j && (!(decide (j ∈ l)) || enabled j)) := by
  intro l
  induction l with
  | nil =>
    intro m j
    simp
  | cons a l ih =>
    intro m j
    rw [List.foldl_cons, ih]
    have hbit : ∀ k, ((1 <<< a : Nat)).testBit k = decide (a = k) := by
      intro k
      simp [Nat.shiftLeft_eq, Nat.testBit_two_pow]
    by_cases hja : j = a
    · subst hja
      cases hm : m.testBit j <;> cases he : enabled j <;>
        simp [hm, he, Nat.testBit_xor, hbit, List.mem_cons]
    · have hstep : ((if m.testBit a && !(enabled a) then m ^^^ (1 <<< a) else m).testBit j)
          = m.testBit j := by
        split
        · rw [Nat.testBit_xor, hbit j]
          simp [Ne.symm hja]
        · rfl
      rw [hstep]
      simp [List.mem_cons, hja]

/-- Bit `j` after the default-mask fold: set exactly when `j` occurs in the
processed list and the host reports it enabled (or it was already set). -/
theorem or_foldl_testBit (enabled : Nat → Bool) :
    ∀ (l : List Nat) (m j : Nat),
    (l.foldl (fun m i => if enabled i then m ||| (1 <<< i) else m) m).testBit j
      = (m.testBit j || (decide (j ∈ l) && enabled j)) := by
  intro l
  induction l with
  | nil =>
    intro m j
    simp
  | cons a l ih =>
    intro m j
    rw [List.foldl_cons, ih]
    have hbit : ∀ k, ((1 <<< a : Nat)).testBit k = decide (a = k) := by
      intro k
      simp [Nat.shiftLeft_eq, Nat.testBit_two_pow]
    by_cases hja : j = a
    · subst hja
      cases hm : m.testBit j <;> cases he : enabled j <;>
        simp [hm, he, Nat.testBit_or, hbit, List.mem_cons]
    · have hstep : ((if enabled a then m ||| (1 <<< a) else m).testBit j) = m.testBit j := by
        split
        · rw [Nat.testBit_or, hbit j]
          simp [Ne.symm hja]
        · rfl
      rw [hstep]
      simp [List.mem_cons, hja]

theorem clearDisabled_testBit (enabled : Nat → Bool) (bound v j : Nat) :
    (clearDisabled enabled bound v).testBit j
      = (v.testBit j && (!(decide (j < bound)) || enabled j)) := by
  rw [clearDisabled, clear_foldl_testBit]
  simp [List.mem_range]

theorem defaultMask_testBit (enabled : Nat → Bool) (maxLcore j : Nat) :
    (defaultMask enabled maxLcore).testBit j = (decide (j < maxLcore) && enabled j) := by
  rw [defaultMask, or_foldl_testBit]
  simp [List.mem_range]

/-- C7: with `RTE_MAX_LCORE ≥ 64`, `spdk_app_parse_core_mask` returns an
error exactly when the mask pointer is null, the string has a non-hex tail
(`end` does not reach the terminator), or the value overflows 64 bits
(`errno = ERANGE`); on success every bit whose core the host reports as not
enabled is cleared and the remaining bits of the parsed value are unchanged
(bits at positions 64 and above of the parsed value are zero anyway). -/
theorem c7_parse_core_mask (enabled : Nat → Bool) (maxLcore : Nat) (h64 : 64 ≤ maxLcore) :
    (∀ cp0, (spdk_app_parse_core_mask enabled maxLcore none cp0).1 ≠ 0) ∧
    (∀ (str : List Char) (cp0 : Nat),
      ((spdk_app_parse_core_mask enabled maxLcore (some str) cp0).1 ≠ 0 ↔
        ((strtoull16 str).2.1 ≠ [] ∨ (strtoull16 str).2.2 = true))) ∧
    (∀ (str : List Char) (cp0 : Nat),
      (strtoull16 str).2.1 = [] → (strtoull16 str).2.2 = false →
      (∀ j, j < 64 →
        ((spdk_app_parse_core_mask enabled maxLcore (some str) cp0).2).testBit j
          = ((strtoull16 str).1.testBit j && enabled j)) ∧
      (∀ j, 64 ≤ j →
        ((spdk_app_parse_core_mask enabled maxLcore (some str) cp0).2).testBit j
          = (strtoull16 str).1.testBit j)) := by
  refine ⟨?_, ?_, ?_⟩
  · intro cp0
    simp [spdk_app_parse_core_mask]
  · intro str cp0
    simp only [spdk_app_parse_core_mask]
    by_cases herr : (strtoull16 str).2.1 ≠ [] ∨ (strtoull16 str).2.2 = true
    · rw [if_pos herr]
      exact ⟨fun _ => herr, fun _ => by simp⟩
    · rw [if_neg herr]
      exact ⟨fun h0 => absurd rfl h0, fun hcon => absurd hcon herr⟩
  · intro str cp0 htail herr
    have hcond : ¬ ((strtoull16 str).2.1 ≠ [] ∨ (strtoull16 str).2.2 = true) := by
      simp [htail, herr]
    simp only [spdk_app_parse_core_mask, if_neg hcond]
    constructor
    · intro j hj
      rw [clearDisabled_testBit, Nat.min_eq_right h64]
      simp [hj]
    · intro j hj
      rw [clearDisabled_testBit, Nat.min_eq_right h64]
      simp [show ¬ j < 64 by omega]

/-- Witness for C7: host enables even cores, `RTE_MAX_LCORE = 64`, input "6"
(bits 1 and 2): no tail, no overflow, so success; bit 1 (core disabled) is
cleared, matching the clearing formula. -/
theorem c7_parse_core_mask_witness :
    ((spdk_app_parse_core_mask (fun i => decide (i % 2 = 0)) 64 (some ['6']) 0).1 ≠ 0 ↔
      ((strtoull16 ['6']).2.1 ≠ [] ∨ (strtoull16 ['6']).2.2 = true)) ∧
    ((spdk_app_parse_core_mask (fun i => decide (i % 2 = 0)) 64 (some ['6']) 0).2).testBit 1
      = ((strtoull16 ['6']).1.testBit 1 && (fun i => decide (i % 2 = 0)) 1) := by
  refine ⟨(c7_parse_core_mask (fun i => decide (i % 2 = 0)) 64 le_rfl).2.1 ['6'] 0, ?_⟩
  exact ((c7_parse_core_mask (fun i => decide (i % 2 = 0)) 64 le_rfl).2.2 ['6'] 0
    (by decide) (by decide)).1 1 (by decide)

/-- C8: a non-null mask that parses successfully but lacks the master-core
bit makes `spdk_reactors_init` return a negative error code and leaves the
global state INVALID — in particular not INITIALIZED and not RUNNING. -/
theorem c8_missing_master_bit (enabled : Nat → Bool) (maxLcore masterCore : Nat)
    (mempoolOk : Bool) (str : List Char) (g : GState)
    (hstate : g.reactorState = spdk_reactor_state.INVALID)
    (htail : (strtoull16 str).2.1 = [])
    (herr : (strtoull16 str).2.2 = false)
    (hmaster : (clearDisabled enabled (min maxLcore 64) (strtoull16 str).1).testBit masterCore
      = false) :
    (spdk_reactors_init enabled maxLcore masterCore mempoolOk (some str) g).1 < 0 ∧
    (spdk_reactors_init enabled maxLcore masterCore mempoolOk (some str) g).2.reactorState
      = spdk_reactor_state.INVALID ∧
    (spdk_reactors_init enabled maxLcore masterCore mempoolOk (some str) g).2.reactorState
      ≠ spdk_reactor_state.INITIALIZED ∧
    (spdk_reactors_init enabled maxLcore masterCore mempoolOk (some str) g).2.reactorState
      ≠ spdk_reactor_state.RUNNING := by
  have hcond : ¬ ((strtoull16 str).2.1 ≠ [] ∨ (strtoull16 str).2.2 = true) := by
    simp [htail, herr]
  have hpm : spdk_reactor_parse_mask enabled maxLcore masterCore (some str) g =
      (-1, { g with
        reactorMask := clearDisabled enabled (min maxLcore 64) (strtoull16 str).1 }) := by
    rw [spdk_reactor_parse_mask,
      if_neg (show ¬ 1 ≤ g.reactorState.toNat by rw [hstate]; decide)]
    simp [spdk_app_parse_core_mask, if_neg hcond, hmaster]
  have hinit : spdk_reactors_init enabled maxLcore masterCore mempoolOk (some str) g =
      (-1, { g with
        reactorMask := clearDisabled enabled (min maxLcore 64) (strtoull16 str).1 }) := by
    rw [spdk_reactors_init]
    simp only [hpm]
    rw [if_pos (by norm_num)]
  rw [hinit]
  exact ⟨by norm_num, hstate, by rw [hstate]; decide, by rw [hstate]; decide⟩

/-- Witness for C8: host enables core 1 only, master core 0, mask "2"
(bit 1): parse succeeds but bit 0 is absent, so init errors with the state
still INVALID. -/
theorem c8_missing_master_bit_witness :
    (spdk_reactors_init (fun i => decide (i = 1)) 2 0 true (some ['2'])
      (GState.mk 0 0 spdk_reactor_state.INVALID [])).1 < 0 ∧
    (spdk_reactors_init (fun i => decide (i = 1)) 2 0 true (some ['2'])
      (GState.mk 0 0 spdk_reactor_state.INVALID [])).2.reactorState
      = spdk_reactor_state.INVALID ∧
    (spdk_reactors_init (fun i => decide (i = 1)) 2 0 true (some ['2'])
      (GState.mk 0 0 spdk_reactor_state.INVALID [])).2.reactorState
      ≠ spdk_reactor_state.INITIALIZED ∧
    (spdk_reactors_init (fun i => decide (i = 1)) 2 0 true (some ['2'])
      (GState.mk 0 0 spdk_reactor_state.INVALID [])).2.reactorState
      ≠ spdk_reactor_state.RUNNING :=
  c8_missing_master_bit (fun i => decide (i = 1)) 2 0 true ['2']
    (GState.mk 0 0 spdk_reactor_state.INVALID []) rfl (by decide) (by decide) (by decide)

/-- C10: a null mask string is not an error: `spdk_reactor_parse_mask` takes
the DPDK default (one bit per host-enabled core, so it contains the master
core, which DPDK always enables), the master-bit check is not on this path,
and `spdk_reactors_init` proceeds to INITIALIZED returning 0. -/
theorem c10_null_mask_defaults (enabled : Nat → Bool) (maxLcore masterCore : Nat)
    (g : GState)
    (hstate : g.reactorState = spdk_reactor_state.INVALID)
    (hmc : masterCore < maxLcore)
    (hen : enabled masterCore = true) :
    (spdk_reactors_init enabled maxLcore masterCore true none g).1 = 0 ∧
    (spdk_reactors_init enabled maxLcore masterCore true none g).2.reactorState
      = spdk_reactor_state.INITIALIZED ∧
    (spdk_reactors_init enabled maxLcore masterCore true none g).2.reactorMask
      = defaultMask enabled maxLcore ∧
    ((spdk_reactors_init enabled maxLcore masterCore true none g).2.reactorMask).testBit
      masterCore = true := by
  have hpm : spdk_reactor_parse_mask enabled maxLcore masterCore none g =
      (0, { g with reactorMask := defaultMask enabled maxLcore }) := by
    rw [spdk_reactor_parse_mask,
      if_neg (show ¬ 1 ≤ g.reactorState.toNat by rw [hstate]; decide)]
  have hinit : spdk_reactors_init enabled maxLcore masterCore true none g =
      (0, { g with
        reactorMask := defaultMask enabled maxLcore,
        constructed := g.constructed ++ (List.range maxLcore).filter
          (fun i => enabled i && (defaultMask enabled maxLcore).testBit i),
        reactorCount := g.reactorCount + ((List.range maxLcore).filter
          (fun i => enabled i && (defaultMask enabled maxLcore).testBit i)).length,
        reactorState := spdk_reactor_state.INITIALIZED }) := by
    rw [spdk_reactors_init]
    simp only [hpm]
    rw [if_neg (by norm_num)]
    simp
  rw [hinit]
  refine ⟨rfl, rfl, rfl, ?_⟩
  rw [defaultMask_testBit]
  simp [hmc, hen]

/-- Witness for C10: host enables cores 0 and 1 of 4, master core 0; null
mask defaults to 0b11 and init reaches INITIALIZED with return code 0. -/
theorem c10_null_mask_defaults_witness :
    (spdk_reactors_init (fun i => decide (i < 2)) 4 0 true none
      (GState.mk 0 0 spdk_reactor_state.INVALID [])).1 = 0 ∧
    (spdk_reactors_init (fun i => decide (i < 2)) 4 0 true none
      (GState.mk 0 0 spdk_reactor_state.INVALID [])).2.reactorState
      = spdk_reactor_state.INITIALIZED ∧
    (spdk_reactors_init (fun i => decide (i < 2)) 4 0 true none
      (GState.mk 0 0 spdk_reactor_state.INVALID [])).2.reactorMask
      = defaultMask (fun i => decide (i < 2)) 4 ∧
    ((spdk_reactors_init (fun i => decide (i < 2)) 4 0 true none
      (GState.mk 0 0 spdk_reactor_state.INVALID [])).2.reactorMask).testBit 0 = true :=
  c10_null_mask_defaults (fun i => decide (i < 2)) 4 0
    (GState.mk 0 0 spdk_reactor_state.INVALID []) rfl (by decide) (by decide)

end SpdkReactor
